import Mathlib

/-!
Verification development for the AOPML engine (aopmlengine.py and the
archive-export bridge in extract_opml.py): the outline data model, the
sanitizing serializer, the plain-text heuristics extractor, the heading
nesting algorithm, the payload entry point and the archive bridge are
embedded as executable Lean definitions, and the specified properties are
settled against them.
-/

/-- The `Outline` dataclass (aopmlengine.py:81-102): a display text, an
ordered list of children and an ordered attribute list (`_attrs`, a dict in
the source, so keys are assumed distinct). -/
structure Outline where
  text : String
  children : List Outline
  attrs : List (String × String)
deriving Repr

/-- The `OPMLDocument` dataclass (aopmlengine.py:104-134).  The
`date_created` default is a wall-clock reading in the source; it is carried
here as an explicit field since no claim depends on its value.  An
`ownerName` of `none` renders Python's `None`. -/
structure OPMLDocument where
  title : String
  date_created : String
  owner_name : Option String
  outlines : List Outline
  meta : List (String × String)
deriving Repr

/-- `xml.sax.saxutils.escape` with default entities (used at
aopmlengine.py:94,117-124): replaces `&`, `<`, `>` and nothing else — in
particular quotes and control characters pass through untouched. -/
def xmlEscape (s : String) : String :=
  ⟨s.data.flatMap fun c =>
    if c = '&' then "&amp;".data
    else if c = '<' then "&lt;".data
    else if c = '>' then "&gt;".data
    else [c]⟩

/-- The attribute list serialized for a node (aopmlengine.py:92-93):
`attrs = {"text": self.text}` then `attrs.update(self._attrs)` — the
`text` key keeps first position, an override from `_attrs` replaces its
value there, and the remaining `_attrs` entries follow in order. -/
def Outline.attrList (o : Outline) : List (String × String) :=
  match o.attrs.lookup "text" with
  | some v => ("text", v) :: o.attrs.filter (fun kv => kv.1 ≠ "text")
  | none => ("text", o.text) :: o.attrs

mutual

/-- Number of nodes in an outline tree (structural, so it computes in the
kernel; also serves as a recursion-depth bound). -/
def treeSize : Outline → Nat
  | ⟨_, kids, _⟩ => 1 + kidsSize kids

def kidsSize : List Outline → Nat
  | [] => 0
  | k :: ks => treeSize k + kidsSize ks

end

/-- `Outline.to_xml` (aopmlengine.py:90-102), with an explicit recursion
bound so the definition is structural and kernel-computable; the `0` case
is unreachable once the bound is at least the node count (`Outline.to_xml`
below passes `treeSize`, and `treeSize` strictly exceeds every child's). -/
def toXmlFuel : Nat → Outline → Nat → Nat → String
  | 0, _, _, _ => ""
  | fuel + 1, ⟨text, children, attrs⟩, indent, level =>
    let pad : String := ⟨List.replicate (indent * level) ' '⟩
    let attrStr := " ".intercalate
      ((Outline.attrList ⟨text, children, attrs⟩).map fun kv =>
        kv.1 ++ "=\"" ++ xmlEscape kv.2 ++ "\"")
    match children with
    | [] => pad ++ "<outline " ++ attrStr ++ "/>\n"
    | c :: cs =>
        pad ++ "<outline " ++ attrStr ++ ">\n" ++
        String.join ((c :: cs).map fun k => toXmlFuel fuel k indent (level + 1)) ++
        pad ++ "</outline>\n"

/-- `Outline.to_xml` (aopmlengine.py:90-102): the child loop at lines
99-100 serializes each child at `level + 1` in order. -/
def Outline.to_xml (o : Outline) (indent level : Nat) : String :=
  toXmlFuel (treeSize o) o indent level

/-- `OPMLDocument.to_xml` (aopmlengine.py:112-131). -/
def OPMLDocument.to_xml (d : OPMLDocument) (indent : Nat) : String :=
  let head :=
    "<?xml version=\"1.0\" encoding=\"UTF-8\"?>\n" ++
    "<opml version=\"2.0\">\n" ++
    "  <head>\n" ++
    "    <title>" ++ xmlEscape d.title ++ "</title>\n" ++
    "    <dateCreated>" ++ xmlEscape d.date_created ++ "</dateCreated>\n" ++
    "    <generator>FunKit AOPML Engine</generator>\n" ++
    (match d.owner_name with
     | some s => if s = "" then "" else "    <ownerName>" ++ xmlEscape s ++ "</ownerName>\n"
     | none => "") ++
    String.join (d.meta.map fun kv =>
      "    <" ++ kv.1 ++ ">" ++ xmlEscape kv.2 ++ "</" ++ kv.1 ++ ">\n") ++
    "  </head>\n" ++
    "  <body>\n"
  let body := String.join (d.outlines.map fun o => Outline.to_xml o indent 1)
  head ++ body ++ "  </body>\n</opml>\n"

/-! ## Python string primitives

Executable renderings of the Python string operations the engine relies on.
Unicode-sensitive operations (`str.lower`, the `\s` class) are rendered for
the character ranges the engine's inputs exercise; comments note the
restriction. -/

/-- Python whitespace (`str.strip()` / the regex class `\s`): ASCII
whitespace plus NEL, NBSP and the Unicode space/separator characters. -/
def pyIsSpace (c : Char) : Bool :=
  c = ' ' ∨ c = '\t' ∨ c = '\n' ∨ c = '\r' ∨ c = '\x0b' ∨ c = '\x0c' ∨
  c = '\x1c' ∨ c = '\x1d' ∨ c = '\x1e' ∨ c = '\x1f' ∨ c = '\x85' ∨ c = '\xa0' ∨
  (0x2000 ≤ c.toNat ∧ c.toNat ≤ 0x200a) ∨
  c = ' ' ∨ c = ' ' ∨ c = ' ' ∨ c = ' ' ∨ c = '　' ∨
  c = ' '

/-- Python `str.strip()` (no argument): drop leading and trailing
whitespace. -/
def pyStrip (s : String) : String :=
  ⟨(s.data.dropWhile pyIsSpace).reverse.dropWhile pyIsSpace |>.reverse⟩

/-- Python `str.rstrip()`. -/
def pyRstrip (s : String) : String :=
  ⟨(s.data.reverse.dropWhile pyIsSpace).reverse⟩

/-- Python `str.strip(chars)`: drop leading and trailing characters drawn
from the given set. -/
def pyStripChars (chars : List Char) (s : String) : String :=
  ⟨(s.data.dropWhile (chars.contains ·)).reverse.dropWhile (chars.contains ·) |>.reverse⟩

/-- Python line-break characters recognised by `str.splitlines` (besides
the `\r\n` pair handled separately). -/
def pyIsLineBreak (c : Char) : Bool :=
  c = '\n' ∨ c = '\r' ∨ c = '\x0b' ∨ c = '\x0c' ∨
  c = '\x1c' ∨ c = '\x1d' ∨ c = '\x1e' ∨ c = '\x85' ∨
  c = ' ' ∨ c = ' '

/-- Python `str.splitlines()`: split at line-break characters (`\r\n`
counting as one boundary), with no empty trailing line. -/
def pySplitlinesAux : List Char → List Char → List (List Char)
  | [], acc => if acc = [] then [] else [acc.reverse]
  | '\r' :: '\n' :: rest, acc => acc.reverse :: pySplitlinesAux rest []
  | c :: rest, acc =>
      if pyIsLineBreak c then acc.reverse :: pySplitlinesAux rest []
      else pySplitlinesAux rest (c :: acc)

def pySplitlines (s : String) : List String :=
  (pySplitlinesAux s.data []).map fun cs => ⟨cs⟩

/-- Python `str.lower()` restricted to ASCII (the engine's tag signatures
are ASCII). -/
def pyLower (s : String) : String := ⟨s.data.map Char.toLower⟩

/-- Whether the first character list starts the second. -/
def strStartsAux : List Char → List Char → Bool
  | [], _ => true
  | _ :: _, [] => false
  | a :: as, b :: bs => a = b ∧ strStartsAux as bs

/-- Whether `needle` occurs as a contiguous substring of `hay` (renders
Python's `in` on strings). -/
def strHasSubAux (needle : List Char) : List Char → Bool
  | [] => needle = []
  | c :: rest => strStartsAux needle (c :: rest) ∨ strHasSubAux needle rest

def strHasSub (hay needle : String) : Bool :=
  needle = "" ∨ strHasSubAux needle.data hay.data

/-- Python truthiness chaining `a or b` on strings: `b` when `a` is empty. -/
def pyOr (a b : String) : String := if a = "" then b else a

/-! ## Heuristics (aopmlengine.py:136-169, 277-311) -/

/-- The `_LIST_MARK` regex `^\s*(?:[-*•‣·]|\d+[.)])\s+` (aopmlengine.py:138)
as a matcher: `some rest` gives the line with the matched marker removed
(what `re.sub(_LIST_MARK, "", ln)` leaves), `none` means no match.  The
digit class is rendered as ASCII digits. -/
def stripListMark (s : String) : Option String :=
  let rest := s.data.dropWhile pyIsSpace
  let afterMark : Option (List Char) :=
    match rest with
    | c :: tl =>
        if c = '-' ∨ c = '*' ∨ c = '•' ∨ c = '‣' ∨ c = '·' then some tl
        else
          let ds := rest.takeWhile Char.isDigit
          if ds.isEmpty then none
          else
            match rest.drop ds.length with
            | d :: tl2 => if d = '.' ∨ d = ')' then some tl2 else none
            | [] => none
    | [] => none
  match afterMark with
  | some (c :: tl) =>
      if pyIsSpace c then some ⟨(c :: tl).dropWhile pyIsSpace⟩ else none
  | some [] => none
  | none => none

/-- The `_TITLE_LINE` regex `^[\t ]*([A-Z][^a-z\n]{3,}|[#]{1,6}\s+.+)$`
(aopmlengine.py:139) on a single line (no embedded line breaks). -/
def titleLineMatch (s : String) : Bool :=
  let rest := s.data.dropWhile fun c => c = '\t' ∨ c = ' '
  let alt1 : Bool :=
    match rest with
    | c :: tl =>
        c.isUpper && decide (3 ≤ tl.length) &&
        tl.all fun d => !(decide ('a' ≤ d) && decide (d ≤ 'z')) && decide (d ≠ '\n')
    | [] => false
  let alt2 : Bool :=
    let hashes := rest.takeWhile (· = '#')
    let u := rest.drop hashes.length
    decide (1 ≤ hashes.length) && decide (hashes.length ≤ 6) &&
    (match u with
     | c :: tl => pyIsSpace c && !tl.isEmpty
     | [] => false)
  alt1 || alt2

/-- One scan step of `re.split(r"\n\s*\n+", ...)` (aopmlengine.py:148): at a
`\n` the pattern matches exactly when the following maximal whitespace run
contains another `\n`, and (after the greedy `\s*` backtracks into `\n+`)
the match ends just after the last `\n` of that run; trailing non-newline
whitespace of the run starts the next part. -/
def splitParasAux : Nat → List Char → List Char → List (List Char)
  | _, [], cur => [cur.reverse]
  | 0, cs, cur => [cur.reverse ++ cs]
  | fuel + 1, '\n' :: rest, cur =>
      let run := rest.takeWhile pyIsSpace
      if run.contains '\n' then
        let keep := (run.reverse.takeWhile (fun c => c ≠ '\n')).reverse
        cur.reverse :: splitParasAux fuel (keep ++ rest.drop run.length) []
      else splitParasAux fuel rest ('\n' :: cur)
  | fuel + 1, c :: rest, cur => splitParasAux fuel rest (c :: cur)

/-- `split_paragraphs` (aopmlengine.py:146-149).  `splitParasAux` consumes
at least one character per fuel unit, so fuel `length` never runs out and
the `0` case is unreachable. -/
def splitParagraphs (text : String) : List String :=
  ((splitParasAux (pyStrip text).data.length (pyStrip text).data []).map
    fun cs => pyStrip ⟨cs⟩).filter (· ≠ "")

/-- One scan step of `re.split(r"[;••◦]|\s\-\s", tail)`
(aopmlengine.py:166). -/
def splitListDelimsAux : List Char → List Char → List (List Char)
  | [], cur => [cur.reverse]
  | c :: d :: e :: rest2, cur =>
      if c = ';' ∨ c = '•' ∨ c = '◦' then
        cur.reverse :: splitListDelimsAux (d :: e :: rest2) []
      else if pyIsSpace c ∧ d = '-' ∧ pyIsSpace e then
        cur.reverse :: splitListDelimsAux rest2 []
      else splitListDelimsAux (d :: e :: rest2) (c :: cur)
  | c :: rest, cur =>
      if c = ';' ∨ c = '•' ∨ c = '◦' then cur.reverse :: splitListDelimsAux rest []
      else splitListDelimsAux rest (c :: cur)
termination_by cs _ => cs.length
decreasing_by all_goals simp_arith

def splitListDelims (s : String) : List String :=
  (splitListDelimsAux s.data []).map fun cs => ⟨cs⟩

/-- `block.split(":", 1)` with a colon present: text before the first colon
and text after it. -/
def firstColonSplit (s : String) : String × String :=
  let pre := s.data.takeWhile (· ≠ ':')
  (⟨pre⟩, ⟨(s.data.drop pre.length).drop 1⟩)

/-- `bulletize_lines` (aopmlengine.py:152-169): `(bullets?, remainder?)`. -/
def bulletize (block : String) : Option (List String) × Option String :=
  let lines := ((pySplitlines block).filter fun l => pyStrip l ≠ "").map pyRstrip
  if lines.isEmpty then (none, none)
  else if max 2 (lines.length / 2) ≤ lines.countP (fun l => (stripListMark l).isSome) then
    (some ((lines.filter fun l => (stripListMark l).isSome).map
      fun l => pyStrip ((stripListMark l).getD l)), none)
  else if strHasSub block ":" ∧ (strHasSub block ";" ∨ strHasSub block "," ∨ strHasSub block "•") then
    let ht := firstColonSplit block
    let items := ((splitListDelims ht.2).filter fun it => pyStrip it ≠ "").map
      (pyStripChars [' ', '\t', '-', '•', '‣', '·'])
    if 2 ≤ items.length ∧ items.all fun it => it.length ≤ 240 then
      (some items, some (pyStrip ht.1))
    else (none, some block)
  else (none, some block)

def pyStartsWith (s pre : String) : Bool := strStartsAux pre.data s.data

/-- The Setext-underline test of the title-inference loop
(aopmlengine.py:286): the next line, stripped, is a nonempty run of `=` or
of `-` at least `max 3 (len(ln.strip()) / 2)` long. -/
def underlineHit (ln : String) : Option String → Bool
  | some nxt =>
      let u := pyStrip nxt
      decide (u ≠ "") && (u.data.all (· = '=') || u.data.all (· = '-')) &&
      decide (max 3 ((pyStrip ln).length / 2) ≤ u.length)
  | none => false

/-- The title-inference loop of `text_to_outline` (aopmlengine.py:280-293):
scan at most the first 8 lines; on the first hit return the raw matched
title (possibly empty, Python's falsy `""`) and the remaining lines. -/
def inferTitleGo (lines : List String) : Nat → Nat → Option (String × List String)
  | _, 0 => none
  | i, fuel + 1 =>
      match lines[i]? with
      | none => none
      | some ln =>
          if pyStartsWith (pyStrip ln) "# " then
            some (pyStrip (pyStripChars ['#', ' '] ln), lines.drop (i + 1))
          else if underlineHit ln lines[i+1]? then
            some (pyStrip ln, lines.drop (i + 2))
          else if titleLineMatch ln then
            some (pyStrip (pyStripChars ['#', ' '] ln), lines.drop (i + 1))
          else inferTitleGo lines (i + 1) fuel

def inferTitle (lines : List String) : Option (String × List String) :=
  inferTitleGo lines 0 8

/-- `text_to_outline` (aopmlengine.py:277-311).  The `assumed_title`
argument uses `""` for Python's `None` (both are falsy in every use). -/
def textToOutline (text : String) (assumedTitle : String) : Outline :=
  let lines0 := (pySplitlines text).map pyRstrip
  let tl : String × List String :=
    match inferTitle lines0 with
    | some (t, rest) => (pyOr t (pyOr assumedTitle "Document"), rest)
    | none => (pyOr assumedTitle "Document", lines0)
  let body := "\n".intercalate tl.2
  let kids := (splitParagraphs body).map fun para =>
    match bulletize para with
    | (some bullets, remOpt) =>
        let rem := remOpt.getD ""
        let headText :=
          if rem = "" then (⟨para.data.takeWhile (· ≠ '\n')⟩ : String).take 60 else rem
        Outline.mk (if headText = "" then "List" else headText)
          (bullets.map fun b => ⟨b, [], []⟩) []
    | (none, _) => Outline.mk para [] []
  Outline.mk tl.1 kids []

/-- `build_opml_from_text` (aopmlengine.py:396-412).  `cfgTitle` renders
`_cfg_get(cfg, "title", ...)`, with `""` for an absent or falsy value; the
wall-clock `date_created` default is irrelevant to every claim and carried
as `""`. -/
def buildOpmlFromText (title text cfgTitle : String) : OPMLDocument :=
  let outline := textToOutline text cfgTitle
  let finalTitle := pyOr (pyOr (pyOr outline.text cfgTitle) title) "Document"
  { title := finalTitle
    date_created := ""
    owner_name := none
    outlines :=
      if outline.children.isEmpty then [⟨pyOr outline.text finalTitle, [], []⟩]
      else outline.children
    meta := [] }

/-! ## Payload entry point (aopmlengine.py:137-143, 359-371) -/

/-- The three payload kinds `convert_payload_to_opml` accepts: `None`, a
byte string, or a text string (`bytearray` behaves as `bytes`). -/
inductive Payload where
  | null : Payload
  | bytes : List Nat → Payload
  | str : String → Payload

/-- `bytes.decode("utf-8", "replace")`: total UTF-8 decoding where every
maximal invalid subpart becomes one U+FFFD replacement character.  Each
step consumes at least one byte, so with fuel = byte count the `0` case is
unreachable and the recursion is structural (kernel-computable). -/
def utf8DecodeGo : Nat → List Nat → List Char
  | _, [] => []
  | 0, _ => []
  | fuel + 1, b :: rest =>
      let repl : Char := '�'
      let isCont : Nat → Bool := fun x => 0x80 ≤ x ∧ x ≤ 0xbf
      if b < 0x80 then Char.ofNat b :: utf8DecodeGo fuel rest
      else if 0xc2 ≤ b ∧ b ≤ 0xdf then
        match rest with
        | b2 :: rest2 =>
            if isCont b2 then
              Char.ofNat ((b - 0xc0) * 64 + (b2 - 0x80)) :: utf8DecodeGo fuel rest2
            else repl :: utf8DecodeGo fuel (b2 :: rest2)
        | [] => [repl]
      else if 0xe0 ≤ b ∧ b ≤ 0xef then
        let okB2 : Nat → Bool := fun x =>
          if b = 0xe0 then 0xa0 ≤ x ∧ x ≤ 0xbf
          else if b = 0xed then 0x80 ≤ x ∧ x ≤ 0x9f
          else isCont x
        match rest with
        | b2 :: b3 :: rest3 =>
            if okB2 b2 then
              if isCont b3 then
                Char.ofNat ((b - 0xe0) * 4096 + (b2 - 0x80) * 64 + (b3 - 0x80)) ::
                  utf8DecodeGo fuel rest3
              else repl :: utf8DecodeGo fuel (b3 :: rest3)
            else repl :: utf8DecodeGo fuel (b2 :: b3 :: rest3)
        | [b2] => if okB2 b2 then [repl] else [repl, repl]
        | [] => [repl]
      else if 0xf0 ≤ b ∧ b ≤ 0xf4 then
        let okB2 : Nat → Bool := fun x =>
          if b = 0xf0 then 0x90 ≤ x ∧ x ≤ 0xbf
          else if b = 0xf4 then 0x80 ≤ x ∧ x ≤ 0x8f
          else isCont x
        match rest with
        | b2 :: b3 :: b4 :: rest4 =>
            if okB2 b2 then
              if isCont b3 then
                if isCont b4 then
                  Char.ofNat ((b - 0xf0) * 262144 + (b2 - 0x80) * 4096 +
                    (b3 - 0x80) * 64 + (b4 - 0x80)) :: utf8DecodeGo fuel rest4
                else repl :: utf8DecodeGo fuel (b4 :: rest4)
              else repl :: utf8DecodeGo fuel (b3 :: b4 :: rest4)
            else repl :: utf8DecodeGo fuel (b2 :: b3 :: b4 :: rest4)
        | [b2, b3] =>
            if okB2 b2 then (if isCont b3 then [repl] else [repl, repl]) else [repl, repl, repl]
        | [b2] => if okB2 b2 then [repl] else [repl, repl]
        | [] => [repl]
      else repl :: utf8DecodeGo fuel rest

def utf8DecodeReplace (bs : List Nat) : List Char := utf8DecodeGo bs.length bs

/-- The text a payload denotes (aopmlengine.py:365):
`payload.decode("utf-8", "replace") if isinstance(payload, (bytes, bytearray))
else str(payload or "")` — `None` and `""` are both falsy, a string passes
through unchanged. -/
def payloadText : Payload → String
  | .null => ""
  | .bytes bs => ⟨utf8DecodeReplace bs⟩
  | .str s => s

/-- The markup test of `convert_payload_to_opml` (aopmlengine.py:366-367):
`("<html" in low) or ("<body" in low) or ("<div" in low) or ("<p" in low)`
on the lowercased text. -/
def routesAsHtml (text : String) : Bool :=
  let low := pyLower text
  strHasSub low "<html" ∨ strHasSub low "<body" ∨ strHasSub low "<div" ∨ strHasSub low "<p"

/-- `convert_payload_to_opml` up to serialization (aopmlengine.py:359-371).
The HTML branch calls `build_opml_from_html`, whose heading extraction runs
through an external HTML parser (BeautifulSoup or html.parser tokenizing);
that branch is abstracted as the function argument `hb title text cfgTitle`,
so every theorem below holds for each possible extractor. -/
def convertPayloadDoc (hb : String → String → String → OPMLDocument)
    (title : String) (payload : Payload) (cfgTitle : String) : OPMLDocument :=
  let text := payloadText payload
  if routesAsHtml text then hb title text cfgTitle
  else buildOpmlFromText title text cfgTitle

/-- `convert_payload_to_opml` (aopmlengine.py:359-371): returns the
serialized XML of the routed document. -/
def convertPayloadToOpml (hb : String → String → String → OPMLDocument)
    (title : String) (payload : Payload) (cfgTitle : String) : String :=
  (convertPayloadDoc hb title payload cfgTitle).to_xml 2

/-- One alternative of the `_HTML_SIGNS` regex
`<\s*(!doctype|html|head|body|h[1-6]|p|div|ul|ol|li)\b` (aopmlengine.py:137),
case-insensitively, with ASCII word characters for `\b`. -/
def htmlSignAlts : List String :=
  ["!doctype", "html", "head", "body", "h1", "h2", "h3", "h4", "h5", "h6",
   "p", "div", "ul", "ol", "li"]

def isWordChar (c : Char) : Bool :=
  ('a' ≤ c ∧ c ≤ 'z') ∨ ('A' ≤ c ∧ c ≤ 'Z') ∨ ('0' ≤ c ∧ c ≤ '9') ∨ c = '_'

/-- Whether some `_HTML_SIGNS` alternative matches right after a `<` at the
head of `cs` (skipping `\s*`, then the tag word, then a `\b` boundary). -/
def htmlSignAfterLt (cs : List Char) : Bool :=
  let cs := cs.dropWhile pyIsSpace
  htmlSignAlts.any fun alt =>
    strStartsAux alt.data (cs.map Char.toLower) &&
    (match cs.drop alt.length with
     | [] => true
     | d :: _ => !isWordChar d)

def htmlSignsSearch : List Char → Bool
  | [] => false
  | c :: rest => (c = '<' ∧ htmlSignAfterLt rest) ∨ htmlSignsSearch rest

/-- `is_probably_html` (aopmlengine.py:142-143): `re.search` of
`_HTML_SIGNS` anywhere in the text. -/
def isProbablyHtml (text : String) : Bool := htmlSignsSearch text.data

/-! ## Archive bridge (aopmlengine.py:429-505, extract_opml.py) -/

/-- One `archive_pages` row as selected at aopmlengine.py:452-458:
`(id, title, url, captured_at, snippet, clean_html)`.  String fields use
`""` for SQL NULL / Python falsy values (every use is a truthiness test or
an `or` fallback). -/
structure Row where
  id : Int
  title : String
  url : String
  captured_at : String
  snippet : String
  clean_html : String

/-- The per-row node built by the loop at aopmlengine.py:473-497.  The
structured breakdown of `clean_html` goes through `build_opml_from_html`
(an external-HTML-parser path); its top-level outlines are abstracted as
the function argument `sub page_title clean_html`. -/
def rowNode (sub : String → String → List Outline) (r : Row) : Outline :=
  let pageTitle := pyOr r.title ("Snapshot " ++ toString r.id)
  let snippetKids : List Outline :=
    if r.snippet = "" then []
    else [⟨"Snippet: " ++ r.snippet.take 200 ++ "…", [], []⟩]
  let htmlKids : List Outline :=
    if r.clean_html = "" then [] else sub pageTitle r.clean_html
  { text := pageTitle
    children := snippetKids ++ htmlKids
    attrs := [("url", r.url), ("captured_at", r.captured_at),
              ("_local_id", toString r.id)] }

/-- The document assembled by `export_archive_to_opml`
(aopmlengine.py:462-497): rows appended in order by the loop. -/
def exportDoc (sub : String → String → List Outline)
    (dateCreated : String) (ownerName : Option String) (rows : List Row) :
    OPMLDocument :=
  rows.foldl (fun d r => { d with outlines := d.outlines ++ [rowNode sub r] })
    { title := "AI Navigator Archive"
      date_created := dateCreated
      owner_name := ownerName
      outlines := []
      meta := [("generatorDetail", "AI Navigator Reader Mode + FunKit AOPML Engine"),
               ("about", "Locally captured pages, cleaned of scripts/paywalls, exported as outline for PiKit/FunKit.")] }

/-- File-system operations observable from the engine's output write. -/
inductive FsOp where
  | openTrunc : String → FsOp
  | writeAll : String → String → FsOp
  | closeF : String → FsOp
  | rename : String → String → FsOp
deriving DecidableEq, Repr

/-- The write performed by `export_archive_to_opml` (aopmlengine.py:501-502,
likewise extract_opml.py:32-33): `with open(out_path, "w", encoding="utf-8")
as f: f.write(xml_text)` — an opening truncation, one write, a close, all on
the destination path itself. -/
def exportWritePlan (outPath xml : String) : List FsOp :=
  [.openTrunc outPath, .writeAll outPath xml, .closeF outPath]

/-- Small file-system semantics for `FsOp` traces: a map from path to
current content (`none` = absent). -/
def runOp (fs : String → Option String) : FsOp → (String → Option String)
  | .openTrunc p => fun q => if q = p then some "" else fs q
  | .writeAll p c => fun q => if q = p then some (((fs p).getD "") ++ c) else fs q
  | .closeF _ => fs
  | .rename s d => fun q => if q = d then fs s else if q = s then none else fs q

def runOps (ops : List FsOp) (fs : String → Option String) : String → Option String :=
  ops.foldl runOp fs

/-- Modelled from the spec's words for comparison (§4.5 "serialize to a
temporary path and rename over the destination"): the trace writes only to
some temporary path distinct from the destination and installs it with a
final rename; it never opens or writes the destination directly. -/
def SpecAtomicTempRename (ops : List FsOp) (dest : String) : Prop :=
  (∃ tmp, tmp ≠ dest ∧ FsOp.rename tmp dest ∈ ops) ∧
  (∀ c, FsOp.writeAll dest c ∉ ops) ∧ FsOp.openTrunc dest ∉ ops

/-! ## Heading nesting (aopmlengine.py:208-217 and 240-250)

Both nesting loops run the same algorithm over the scanned heading list
`[(level, text), ...]`: a stack seeded with `(0, root)`, popping while the
new level is `≤` the top's level, then linking the new node under the stack
top and pushing it.  The source links a freshly created node into the
then-current top by mutation and lets its child list grow while it sits on
the stack; the purely functional rendering below delays that link: a frame
keeps its accumulated children and a popped frame's finished node is
appended to the children of the frame below it, which produces the same
tree. -/

/-- One stack entry: the `(level, node)` pair of the source, with the
node's accumulated children held in the frame. -/
structure Frame where
  lvl : Nat
  text : String
  children : List Outline
deriving Repr

/-- The finished node of a frame. -/
def Frame.node (f : Frame) : Outline := ⟨f.text, f.children, []⟩

/-- Popping the top frame (`stack.pop()`): its finished node joins the
children of the frame below.  An empty remainder discards the node — in
the source that state crashes at `stack[-1]` and is unreachable (claim C9). -/
def mergeTop : Frame → List Frame → List Frame
  | _, [] => []
  | f, g :: r => ⟨g.lvl, g.text, g.children ++ [f.node]⟩ :: r

/-- `while stack and lvl <= stack[-1][0]: stack.pop()`
(aopmlengine.py:213-214, 247-248). -/
def popWhile (l : Nat) : List Frame → List Frame
  | [] => []
  | f :: r => if l ≤ f.lvl then popWhile l (mergeTop f r) else f :: r
termination_by s => s.length
decreasing_by
  cases r with
  | nil => simp [mergeTop]
  | cons g r2 => simp [mergeTop]

/-- One loop iteration for heading `(lvl, text)`: pop, link under the new
top, push `(lvl, node)` (aopmlengine.py:211-216, 243-250). -/
def stepH (s : List Frame) (h : Nat × String) : List Frame :=
  ⟨h.1, h.2, []⟩ :: popWhile h.1 s

/-- Folding the stack down at the end of the loop: every remaining frame's
finished node becomes the last child of the frame below; the bottom frame
is the returned root. -/
def collapseStack : List Frame → Outline
  | [] => ⟨"", [], []⟩
  | [f] => f.node
  | f :: g :: r => collapseStack (⟨g.lvl, g.text, g.children ++ [f.node]⟩ :: r)
termination_by s => s.length
decreasing_by simp_arith

/-- `_MiniHTMLHeadingParser.to_outline` (aopmlengine.py:208-217) — and the
identical loop of the BeautifulSoup path (aopmlengine.py:240-250) — applied
to the scanned heading list. -/
def headingsToOutline (root : String) (hs : List (Nat × String)) : Outline :=
  collapseStack (hs.foldl stepH [⟨0, root, []⟩])

/-- Some node of the tree (the root included) satisfies `P`. -/
inductive TreeHasNode (P : Outline → Prop) : Outline → Prop
  | here {t : Outline} : P t → TreeHasNode P t
  | child {t c : Outline} : c ∈ t.children → TreeHasNode P c → TreeHasNode P t

/-- Total node count of a frame stack (each frame: its pending node plus
its accumulated children). -/
def stackSize (s : List Frame) : Nat :=
  (s.map fun f => 1 + kidsSize f.children).sum

/-- The stack ends in the seed frame `(0, rt, _)` (its children grow, its
level and text never change). -/
def Bottomed (rt : String) (s : List Frame) : Prop :=
  ∃ s' c, s = s' ++ [⟨0, rt, c⟩]

/-- `P` survives appending further children to a node. -/
def KidsMono (P : Outline → Prop) : Prop :=
  ∀ t c d, P ⟨t, c, []⟩ → P ⟨t, c ++ d, []⟩

/-- Some frame's pending node satisfies `P`, or some finished tree already
sitting in a frame's child list contains a node satisfying `P`. -/
def ReachP (P : Outline → Prop) (s : List Frame) : Prop :=
  ∃ f ∈ s, P f.node ∨ ∃ x ∈ f.children, TreeHasNode P x

/-- `P` is guaranteed for the node frame `B` will finish, as soon as its
children extend `B`'s current ones by some tree labeled `ta`. -/
def AdjC (P : Outline → Prop) (ta : String) (B : Frame) : Prop :=
  ∀ (x : Outline) (c2 : List Outline), x.text = ta →
    (∀ e ∈ B.children, e ∈ c2) → x ∈ c2 → P ⟨B.text, c2, []⟩

/-- Somewhere in the stack a frame sits directly above a frame `B` with
`AdjC` holding for the pair. -/
def AdjP (P : Outline → Prop) (s : List Frame) : Prop :=
  ∃ pre A B post, s = pre ++ A :: B :: post ∧ AdjC P A.text B

def InvP (P : Outline → Prop) (s : List Frame) : Prop :=
  AdjP P s ∨ ReachP P s

theorem mergeTop_length_lt (f : Frame) (r : List Frame) :
    (mergeTop f r).length < (f :: r).length := by
  cases r <;> simp [mergeTop]

theorem kidsSize_append (a b : List Outline) :
    kidsSize (a ++ b) = kidsSize a + kidsSize b := by
  induction a with
  | nil => simp [kidsSize]
  | cons x xs ih => simp [kidsSize, ih]; omega

theorem mergeTop_stackSize (f g : Frame) (r : List Frame) :
    stackSize (mergeTop f (g :: r)) = stackSize (f :: g :: r) := by
  simp [mergeTop, stackSize, kidsSize_append, kidsSize, treeSize, Frame.node]
  omega

theorem bottomed_cons {rt : String} {s : List Frame} (f : Frame)
    (h : Bottomed rt s) : Bottomed rt (f :: s) := by
  obtain ⟨s', c, rfl⟩ := h
  exact ⟨f :: s', c, rfl⟩

theorem bottomed_mergeTop {rt : String} (f : Frame) {r : List Frame}
    (hr : r ≠ []) (h : Bottomed rt (f :: r)) : Bottomed rt (mergeTop f r) := by
  obtain ⟨s', c, hs⟩ := h
  cases s' with
  | nil =>
      simp at hs
      exact absurd hs.2 hr
  | cons a s'' =>
      simp at hs
      obtain ⟨rfl, hr2⟩ := hs
      cases s'' with
      | nil =>
          simp at hr2
          subst hr2
          exact ⟨[], c ++ [f.node], by simp [mergeTop]⟩
      | cons b s''' =>
          simp at hr2
          subst hr2
          exact ⟨⟨b.lvl, b.text, b.children ++ [f.node]⟩ :: s''', c, by simp [mergeTop]⟩

theorem bottomed_ne_nil {rt : String} {s : List Frame} (h : Bottomed rt s) :
    s ≠ [] := by
  obtain ⟨s', c, rfl⟩ := h
  simp

theorem reach_mergeTop {P : Outline → Prop} (hP : KidsMono P)
    (f g : Frame) (r : List Frame) (h : ReachP P (f :: g :: r)) :
    ReachP P (mergeTop f (g :: r)) := by
  obtain ⟨F, hF, hcase⟩ := h
  simp only [mergeTop]
  rcases List.mem_cons.mp hF with rfl | hF2
  · -- the popped top: its finished node lands in the new head's children
    have hT : TreeHasNode P F.node := by
      rcases hcase with hp | ⟨x, hx, hTx⟩
      · exact .here hp
      · exact .child (t := F.node) hx hTx
    refine ⟨⟨g.lvl, g.text, g.children ++ [F.node]⟩, by simp, Or.inr ?_⟩
    exact ⟨F.node, by simp, hT⟩
  · rcases List.mem_cons.mp hF2 with rfl | hF3
    · -- the frame merged into
      rcases hcase with hp | ⟨x, hx, hTx⟩
      · refine ⟨⟨F.lvl, F.text, F.children ++ [f.node]⟩, by simp, Or.inl ?_⟩
        exact hP F.text F.children [f.node] hp
      · refine ⟨⟨F.lvl, F.text, F.children ++ [f.node]⟩, by simp, Or.inr ?_⟩
        exact ⟨x, List.mem_append_left _ hx, hTx⟩
    · exact ⟨F, by simp [hF3], hcase⟩

theorem inv_mergeTop {P : Outline → Prop} (hP : KidsMono P)
    (f g : Frame) (r : List Frame) (h : InvP P (f :: g :: r)) :
    InvP P (mergeTop f (g :: r)) := by
  rcases h with ⟨pre, A, B, post, heq, hC⟩ | hreach
  · cases pre with
    | nil =>
        -- the adjacent pair is at the top: the merge fires the condition
        simp only [List.nil_append, List.cons.injEq] at heq
        obtain ⟨rfl, rfl, rfl⟩ := heq
        refine Or.inr ⟨⟨g.lvl, g.text, g.children ++ [f.node]⟩, by simp [mergeTop], Or.inl ?_⟩
        exact hC f.node (g.children ++ [f.node]) rfl
          (fun e he => List.mem_append_left _ he) (by simp)
    | cons p pre' =>
        simp only [List.cons_append, List.cons.injEq] at heq
        obtain ⟨rfl, heq2⟩ := heq
        cases pre' with
        | nil =>
            -- the frame merged into is the upper frame of the pair
            simp only [List.nil_append, List.cons.injEq] at heq2
            obtain ⟨rfl, rfl⟩ := heq2
            refine Or.inl ⟨[], ⟨g.lvl, g.text, g.children ++ [f.node]⟩, B, post,
              by simp [mergeTop], ?_⟩
            exact hC
        | cons q pre'' =>
            simp only [List.cons_append, List.cons.injEq] at heq2
            obtain ⟨rfl, rfl⟩ := heq2
            exact Or.inl ⟨⟨g.lvl, g.text, g.children ++ [f.node]⟩ :: pre'', A, B, post,
              by simp [mergeTop], hC⟩
  · exact Or.inr (reach_mergeTop hP f g r hreach)

theorem inv_mergeTop_ne {P : Outline → Prop} (hP : KidsMono P)
    (f : Frame) {r : List Frame} (hr : r ≠ []) (h : InvP P (f :: r)) :
    InvP P (mergeTop f r) := by
  obtain ⟨g, r2, rfl⟩ := List.exists_cons_of_ne_nil hr
  exact inv_mergeTop hP f g r2 h

theorem mergeTop_stackSize_ne (f : Frame) {r : List Frame} (hr : r ≠ []) :
    stackSize (mergeTop f r) = stackSize (f :: r) := by
  obtain ⟨g, r2, rfl⟩ := List.exists_cons_of_ne_nil hr
  exact mergeTop_stackSize f g r2

theorem inv_cons {P : Outline → Prop} (f : Frame) {s : List Frame}
    (h : InvP P s) : InvP P (f :: s) := by
  rcases h with ⟨pre, A, B, post, rfl, hC⟩ | ⟨F, hF, hcase⟩
  · exact Or.inl ⟨f :: pre, A, B, post, rfl, hC⟩
  · exact Or.inr ⟨F, List.mem_cons_of_mem _ hF, hcase⟩

theorem popWhile_props (rt : String) {l : Nat} (hl : 1 ≤ l) :
    ∀ s : List Frame, Bottomed rt s →
      Bottomed rt (popWhile l s) ∧
      stackSize (popWhile l s) = stackSize s ∧
      ∀ P : Outline → Prop, KidsMono P → InvP P s → InvP P (popWhile l s)
  | [], hB => absurd rfl (bottomed_ne_nil hB)
  | f :: r, hB => by
      rw [popWhile]
      by_cases hle : l ≤ f.lvl
      · rw [if_pos hle]
        have hr : r ≠ [] := by
          intro hnil
          subst hnil
          obtain ⟨s', c, hs⟩ := hB
          cases s' with
          | nil =>
              simp at hs
              subst hs
              simp at hle
              omega
          | cons a s'' => simp at hs
        have hB2 : Bottomed rt (mergeTop f r) := bottomed_mergeTop f hr hB
        have ih := popWhile_props rt hl (mergeTop f r) hB2
        refine ⟨ih.1, ?_, ?_⟩
        · rw [ih.2.1, mergeTop_stackSize_ne f hr]
        · intro P hP hI
          exact ih.2.2 P hP (inv_mergeTop_ne hP f hr hI)
      · rw [if_neg hle]
        exact ⟨hB, rfl, fun _ _ hI => hI⟩
termination_by s _ => s.length
decreasing_by exact mergeTop_length_lt f r

theorem popWhile_head_lt {l : Nat} :
    ∀ {s f r}, popWhile l s = f :: r → f.lvl < l
  | [], f, r, h => by simp [popWhile] at h
  | g :: r0, f, r, h => by
      rw [popWhile] at h
      by_cases hle : l ≤ g.lvl
      · rw [if_pos hle] at h
        exact popWhile_head_lt h
      · rw [if_neg hle] at h
        injection h with h1 h2
        subst h1
        omega
termination_by s _ _ _ => s.length
decreasing_by exact mergeTop_length_lt g r0

theorem stackSize_cons (f : Frame) (s : List Frame) :
    stackSize (f :: s) = 1 + kidsSize f.children + stackSize s := by
  simp [stackSize]

theorem stepH_props (rt : String) {h : Nat × String} (hl : 1 ≤ h.1)
    {s : List Frame} (hB : Bottomed rt s) :
    Bottomed rt (stepH s h) ∧
    stackSize (stepH s h) = 1 + stackSize s ∧
    ∀ P : Outline → Prop, KidsMono P → InvP P s → InvP P (stepH s h) := by
  have hw := popWhile_props rt hl s hB
  refine ⟨bottomed_cons _ hw.1, ?_, ?_⟩
  · simp only [stepH]
    rw [stackSize_cons, hw.2.1]
    simp [kidsSize]
  · intro P hP hI
    exact inv_cons _ (hw.2.2 P hP hI)

theorem foldl_stepH_props (rt : String) :
    ∀ (hs : List (Nat × String)) (s : List Frame),
      (∀ x ∈ hs, 1 ≤ x.1) → Bottomed rt s →
      Bottomed rt (hs.foldl stepH s) ∧
      stackSize (hs.foldl stepH s) = hs.length + stackSize s ∧
      ∀ P : Outline → Prop, KidsMono P → InvP P s → InvP P (hs.foldl stepH s)
  | [], s, _, hB => ⟨hB, by simp, fun _ _ hI => hI⟩
  | x :: xs, s, hlv, hB => by
      have hx : 1 ≤ x.1 := hlv x (by simp)
      have hstep := stepH_props rt hx hB
      have ih := foldl_stepH_props rt xs (stepH s x)
        (fun y hy => hlv y (by simp [hy])) hstep.1
      refine ⟨ih.1, ?_, ?_⟩
      · simp only [List.foldl_cons]
        rw [ih.2.1, hstep.2.1]
        simp [List.length_cons]
        omega
      · intro P hP hI
        simp only [List.foldl_cons]
        exact ih.2.2 P hP (hstep.2.2 P hP hI)

theorem collapseStack_props :
    ∀ s : List Frame, s ≠ [] →
      treeSize (collapseStack s) = stackSize s ∧
      ∀ P : Outline → Prop, KidsMono P → InvP P s → TreeHasNode P (collapseStack s)
  | [], h => absurd rfl h
  | [f], _ => by
      have hc : collapseStack [f] = f.node := by rw [collapseStack]
      constructor
      · rw [hc]
        simp [stackSize, Frame.node, treeSize]
      · intro P hP hI
        rw [hc]
        rcases hI with ⟨pre, A, B, post, heq, _⟩ | ⟨F, hF, hcase⟩
        · exfalso
          cases pre with
          | nil => simp at heq
          | cons a pre' => simp at heq
        · have hFf : F = f := by simpa using hF
          subst hFf
          rcases hcase with hp | ⟨x, hx, hTx⟩
          · exact .here hp
          · exact .child (t := F.node) hx hTx
  | f :: g :: r, _ => by
      have hmt : mergeTop f (g :: r) = ⟨g.lvl, g.text, g.children ++ [f.node]⟩ :: r := by
        simp [mergeTop]
      have hc : collapseStack (f :: g :: r) =
          collapseStack (⟨g.lvl, g.text, g.children ++ [f.node]⟩ :: r) := by
        rw [collapseStack]
      have ih := collapseStack_props (⟨g.lvl, g.text, g.children ++ [f.node]⟩ :: r) (by simp)
      constructor
      · rw [hc, ih.1, ← hmt, mergeTop_stackSize]
      · intro P hP hI
        rw [hc]
        exact ih.2 P hP (hmt ▸ inv_mergeTop hP f g r hI)
termination_by s _ => s.length
decreasing_by simp_arith

theorem collapseStack_text {rt : String} :
    ∀ s : List Frame, Bottomed rt s → (collapseStack s).text = rt
  | [], hB => absurd rfl (bottomed_ne_nil hB)
  | [f], hB => by
      obtain ⟨s', c, hs⟩ := hB
      cases s' with
      | nil =>
          simp at hs
          subst hs
          rw [show collapseStack [(⟨0, rt, c⟩ : Frame)] = Frame.node ⟨0, rt, c⟩ from by
            rw [collapseStack]]
          rfl
      | cons a s'' => simp at hs
  | f :: g :: r, hB => by
      have hB2 := bottomed_mergeTop f (r := g :: r) (by simp) hB
      have hmt : mergeTop f (g :: r) = ⟨g.lvl, g.text, g.children ++ [f.node]⟩ :: r := by
        simp [mergeTop]
      rw [show collapseStack (f :: g :: r) =
          collapseStack (⟨g.lvl, g.text, g.children ++ [f.node]⟩ :: r) from by
        rw [collapseStack]]
      exact collapseStack_text _ (hmt ▸ hB2)
termination_by s _ => s.length
decreasing_by simp_arith

/-- C3: for every markup input, scanning headings in document order with a
stack seeded at level 0 and popping while the top level is ≥ the new level,
a heading of strictly greater level than its predecessor becomes a
descendant (in fact a child) of it, and two adjacent headings of equal
level become siblings — children of one common node — never parent/child. -/
theorem C3_heading_nesting_tiebreak
    (root t1 t2 : String) (l1 l2 : Nat) (pre suf : List (Nat × String))
    (hpre : ∀ x ∈ pre, 1 ≤ x.1) (hsuf : ∀ x ∈ suf, 1 ≤ x.1)
    (h1 : 1 ≤ l1) (h2 : 1 ≤ l2) :
    (l1 < l2 →
      TreeHasNode (fun n => n.text = t1 ∧ ∃ y ∈ n.children, y.text = t2)
        (headingsToOutline root (pre ++ (l1, t1) :: (l2, t2) :: suf)))
    ∧ (l1 = l2 →
      TreeHasNode (fun n => (∃ y ∈ n.children, y.text = t1) ∧ ∃ y ∈ n.children, y.text = t2)
        (headingsToOutline root (pre ++ (l1, t1) :: (l2, t2) :: suf))) := by
  have hinit : Bottomed root [⟨0, root, []⟩] := ⟨[], [], rfl⟩
  have h0 := foldl_stepH_props root pre [⟨0, root, []⟩] hpre hinit
  have hfold : (pre ++ (l1, t1) :: (l2, t2) :: suf).foldl stepH [⟨0, root, []⟩] =
      suf.foldl stepH
        (stepH (stepH (pre.foldl stepH [⟨0, root, []⟩]) (l1, t1)) (l2, t2)) := by
    rw [List.foldl_append, List.foldl_cons, List.foldl_cons]
  have hpw := popWhile_props root h1 (pre.foldl stepH [⟨0, root, []⟩]) h0.1
  constructor
  · -- strictly deeper heading: child of its predecessor
    intro hlt
    set P1 : Outline → Prop :=
      fun n => n.text = t1 ∧ ∃ y ∈ n.children, y.text = t2 with hP1
    have hmono : KidsMono P1 := by
      intro t c d hpc
      obtain ⟨ht, y, hy, hyt⟩ := hpc
      exact ⟨ht, y, List.mem_append_left _ hy, hyt⟩
    have hpop2 : popWhile l2
        (⟨l1, t1, []⟩ :: popWhile l1 (pre.foldl stepH [⟨0, root, []⟩])) =
        ⟨l1, t1, []⟩ :: popWhile l1 (pre.foldl stepH [⟨0, root, []⟩]) := by
      rw [popWhile, if_neg]
      show ¬ l2 ≤ l1
      omega
    have hstep2 : stepH (stepH (pre.foldl stepH [⟨0, root, []⟩]) (l1, t1)) (l2, t2) =
        ⟨l2, t2, []⟩ :: ⟨l1, t1, []⟩ ::
          popWhile l1 (pre.foldl stepH [⟨0, root, []⟩]) := by
      show (⟨l2, t2, []⟩ : Frame) :: popWhile l2
        (⟨l1, t1, []⟩ :: popWhile l1 (pre.foldl stepH [⟨0, root, []⟩])) = _
      rw [hpop2]
    have hadj : InvP P1 (⟨l2, t2, []⟩ :: ⟨l1, t1, []⟩ ::
        popWhile l1 (pre.foldl stepH [⟨0, root, []⟩])) := by
      refine Or.inl ⟨[], ⟨l2, t2, []⟩, ⟨l1, t1, []⟩, _, (List.nil_append _).symm, ?_⟩
      intro x c2 hxt _ hx
      exact ⟨rfl, x, hx, hxt⟩
    have hBott : Bottomed root (⟨l2, t2, []⟩ :: ⟨l1, t1, []⟩ ::
        popWhile l1 (pre.foldl stepH [⟨0, root, []⟩])) :=
      bottomed_cons _ (bottomed_cons _ hpw.1)
    have hf := foldl_stepH_props root suf _ hsuf hBott
    have hres := (collapseStack_props _ (bottomed_ne_nil hf.1)).2 P1 hmono
      (hf.2.2 P1 hmono hadj)
    unfold headingsToOutline
    rw [hfold, hstep2]
    exact hres
  · -- equal level: both end as children of the node below
    intro heql
    subst heql
    set P2 : Outline → Prop :=
      fun n => (∃ y ∈ n.children, y.text = t1) ∧ ∃ y ∈ n.children, y.text = t2 with hP2
    have hmono : KidsMono P2 := by
      intro t c d hpc
      obtain ⟨⟨y1, hy1, hyt1⟩, y2, hy2, hyt2⟩ := hpc
      exact ⟨⟨y1, List.mem_append_left _ hy1, hyt1⟩,
        y2, List.mem_append_left _ hy2, hyt2⟩
    obtain ⟨f', r', hu⟩ := List.exists_cons_of_ne_nil (bottomed_ne_nil hpw.1)
    have hflt : f'.lvl < l1 := popWhile_head_lt hu
    have hpop2 : popWhile l1
        (⟨l1, t1, []⟩ :: popWhile l1 (pre.foldl stepH [⟨0, root, []⟩])) =
        ⟨f'.lvl, f'.text, f'.children ++ [⟨t1, [], []⟩]⟩ :: r' := by
      rw [popWhile, if_pos (by simp), hu]
      rw [show mergeTop ⟨l1, t1, []⟩ (f' :: r') =
        ⟨f'.lvl, f'.text, f'.children ++ [⟨t1, [], []⟩]⟩ :: r' from by
          simp [mergeTop, Frame.node]]
      rw [popWhile, if_neg]
      show ¬ l1 ≤ f'.lvl
      omega
    have hstep2 : stepH (stepH (pre.foldl stepH [⟨0, root, []⟩]) (l1, t1)) (l1, t2) =
        ⟨l1, t2, []⟩ :: ⟨f'.lvl, f'.text, f'.children ++ [⟨t1, [], []⟩]⟩ :: r' := by
      show (⟨l1, t2, []⟩ : Frame) :: popWhile l1
        (⟨l1, t1, []⟩ :: popWhile l1 (pre.foldl stepH [⟨0, root, []⟩])) = _
      rw [hpop2]
    have hadj : InvP P2 (⟨l1, t2, []⟩ ::
        ⟨f'.lvl, f'.text, f'.children ++ [⟨t1, [], []⟩]⟩ :: r') := by
      refine Or.inl ⟨[], ⟨l1, t2, []⟩,
        ⟨f'.lvl, f'.text, f'.children ++ [⟨t1, [], []⟩]⟩, r',
        (List.nil_append _).symm, ?_⟩
      intro x c2 hxt hsub hx
      constructor
      · exact ⟨⟨t1, [], []⟩, hsub _ (by simp), rfl⟩
      · exact ⟨x, hx, hxt⟩
    have hBott : Bottomed root (⟨l1, t2, []⟩ ::
        ⟨f'.lvl, f'.text, f'.children ++ [⟨t1, [], []⟩]⟩ :: r') := by
      have hstep1B : Bottomed root (⟨l1, t1, []⟩ ::
          popWhile l1 (pre.foldl stepH [⟨0, root, []⟩])) :=
        bottomed_cons _ hpw.1
      have := bottomed_mergeTop ⟨l1, t1, []⟩
        (r := popWhile l1 (pre.foldl stepH [⟨0, root, []⟩]))
        (bottomed_ne_nil hpw.1) hstep1B
      rw [hu] at this
      rw [show mergeTop ⟨l1, t1, []⟩ (f' :: r') =
        ⟨f'.lvl, f'.text, f'.children ++ [⟨t1, [], []⟩]⟩ :: r' from by
          simp [mergeTop, Frame.node]] at this
      exact bottomed_cons _ this
    have hf := foldl_stepH_props root suf _ hsuf hBott
    have hres := (collapseStack_props _ (bottomed_ne_nil hf.1)).2 P2 hmono
      (hf.2.2 P2 hmono hadj)
    unfold headingsToOutline
    rw [hfold, hstep2]
    exact hres

/-- C3 witness: headings `h1 "A"`, `h2 "B"` — the deeper heading ends as a
child of its predecessor. -/
theorem C3_heading_nesting_tiebreak_witness :
    TreeHasNode (fun n => n.text = "A" ∧ ∃ y ∈ n.children, y.text = "B")
      (headingsToOutline "Document" ([] ++ (1, "A") :: (2, "B") :: [])) :=
  (C3_heading_nesting_tiebreak "Document" "A" "B" 1 2 [] []
    (by simp) (by simp) (by omega) (by omega)).1 (by omega)

/-- C9: with every scanned heading level between 1 and 6 (both nesting
loops guarantee this), the stack seeded with the level-0 root frame is
never emptied by the pop loop — so the append to the stack top never
fails — and every heading node ends up inside the single tree under the
synthetic root: the result has exactly `1 + |headings|` nodes and keeps the
root's label. -/
theorem C9_stack_never_empty
    (hs p rest : List (Nat × String)) (h : Nat × String)
    (H : ∀ x ∈ hs, 1 ≤ x.1 ∧ x.1 ≤ 6) (hsplit : hs = p ++ h :: rest) :
    popWhile h.1 (p.foldl stepH [⟨0, "Document", []⟩]) ≠ [] ∧
    treeSize (headingsToOutline "Document" hs) = 1 + hs.length ∧
    (headingsToOutline "Document" hs).text = "Document" := by
  have hinit : Bottomed "Document" [⟨0, "Document", []⟩] := ⟨[], [], rfl⟩
  have hp : ∀ x ∈ p, 1 ≤ x.1 := by
    intro x hx
    exact (H x (by rw [hsplit]; exact List.mem_append_left _ hx)).1
  have hh : 1 ≤ h.1 :=
    (H h (by rw [hsplit]; exact List.mem_append_right _ (by simp))).1
  have h0 := foldl_stepH_props "Document" p [⟨0, "Document", []⟩] hp hinit
  have hpw := popWhile_props "Document" hh (p.foldl stepH [⟨0, "Document", []⟩]) h0.1
  have hall := foldl_stepH_props "Document" hs [⟨0, "Document", []⟩]
    (fun x hx => (H x hx).1) hinit
  refine ⟨bottomed_ne_nil hpw.1, ?_, ?_⟩
  · unfold headingsToOutline
    rw [(collapseStack_props _ (bottomed_ne_nil hall.1)).1, hall.2.1]
    simp [stackSize, kidsSize]
    omega
  · exact collapseStack_text _ hall.1

/-- C9 witness: a single `h1` heading. -/
theorem C9_stack_never_empty_witness :
    popWhile 1 (([] : List (Nat × String)).foldl stepH [⟨0, "Document", []⟩]) ≠ [] ∧
    treeSize (headingsToOutline "Document" [(1, "Intro")]) = 1 + [(1, "Intro")].length ∧
    (headingsToOutline "Document" [(1, "Intro")]).text = "Document" := by
  have := C9_stack_never_empty [(1, "Intro")] [] [] (1, "Intro") (by simp) rfl
  exact this

/-- C1 (the claim fails in the code): the serializer strips nothing and
escapes only `&`, `<`, `>` — quotes and characters outside the legal XML
1.0 ranges pass through.  A text of U+0001 reaches the output verbatim, and
an attribute value holding a double quote yields `url="a"b"`, which is not
well-formed XML. -/
theorem C1_serializer_emits_illegal_output :
    xmlEscape "a\"b'c\x01" = "a\"b'c\x01" ∧
    (((Outline.mk "\x01" [] []).to_xml 2 0).data.contains '\x01') = true ∧
    (Outline.mk "t" [] [("url", "a\"b")]).to_xml 2 0 =
      "<outline text=\"t\" url=\"a\"b\"/>\n" :=
  ⟨rfl, rfl, rfl⟩

/-- C2 counterexample: the export's write trace contains no rename at all
(and writes the destination directly), so it is not a
temp-file-plus-rename atomic write. -/
theorem C2_counterexample_no_temp_rename :
    ¬ SpecAtomicTempRename
        (exportWritePlan "archive_export.opml" "<opml version=\"2.0\"/>")
        "archive_export.opml" := by
  intro h
  obtain ⟨⟨tmp, _, hmem⟩, _, _⟩ := h
  simp [exportWritePlan] at hmem

/-- C2 amended: the export serializes and then writes directly to the
destination with a single truncating open — no temporary path, no rename —
so the completed call leaves the full XML at the destination, while an
interruption right after the open leaves an empty truncated file there. -/
theorem C2_direct_write (outPath xml : String) (fs0 : String → Option String) :
    exportWritePlan outPath xml =
      [FsOp.openTrunc outPath, FsOp.writeAll outPath xml, FsOp.closeF outPath] ∧
    runOps (exportWritePlan outPath xml) fs0 outPath = some xml ∧
    runOps [FsOp.openTrunc outPath] fs0 outPath = some "" := by
  refine ⟨rfl, ?_, ?_⟩
  · simp [runOps, runOp, exportWritePlan]
  · simp [runOps, runOp]

/-- C7: a row with empty body (`clean_html`) and non-empty snippet yields a
row node with exactly one child — the snippet leaf, labeled
`"Snippet: " ++ snippet[:200] ++ "…"`, itself childless — and no heading
subtree, whatever the HTML extractor would have produced. -/
theorem C7_snippet_only_row (sub : String → String → List Outline) (r : Row)
    (hbody : r.clean_html = "") (hsnip : r.snippet ≠ "") :
    (rowNode sub r).children =
      [⟨"Snippet: " ++ r.snippet.take 200 ++ "…", [], []⟩] ∧
    ∀ c ∈ (rowNode sub r).children, c.children = [] := by
  have h1 : (rowNode sub r).children =
      [⟨"Snippet: " ++ r.snippet.take 200 ++ "…", [], []⟩] := by
    simp [rowNode, hbody, hsnip]
  refine ⟨h1, ?_⟩
  intro c hc
  rw [h1] at hc
  simp at hc
  rw [hc]

/-- C7 witness: a concrete row with empty body and snippet "snip". -/
theorem C7_snippet_only_row_witness :
    (rowNode (fun _ _ => []) ⟨1, "T", "u", "ts", "snip", ""⟩).children =
      [⟨"Snippet: " ++ ("snip" : String).take 200 ++ "…", [], []⟩] ∧
    ∀ c ∈ (rowNode (fun _ _ => []) ⟨1, "T", "u", "ts", "snip", ""⟩).children,
      c.children = [] :=
  C7_snippet_only_row (fun _ _ => []) ⟨1, "T", "u", "ts", "snip", ""⟩ rfl (by decide)

/-- C8: the archive export preserves the order of the row sequence: its
outline forest is exactly the row list mapped to row nodes, so the node of
row `i` sits at position `i`, before the node of row `i+1`. -/
theorem C8_export_preserves_row_order (sub : String → String → List Outline)
    (dateCreated : String) (ownerName : Option String) (rows : List Row) :
    (exportDoc sub dateCreated ownerName rows).outlines = rows.map (rowNode sub) ∧
    ∀ i : Nat, (exportDoc sub dateCreated ownerName rows).outlines[i]? =
      (rows[i]?).map (rowNode sub) := by
  have key : ∀ (rs : List Row) (d : OPMLDocument),
      (rs.foldl (fun d r => { d with outlines := d.outlines ++ [rowNode sub r] }) d).outlines
        = d.outlines ++ rs.map (rowNode sub) := by
    intro rs
    induction rs with
    | nil => intro d; simp
    | cons r rs2 ih =>
        intro d
        rw [List.foldl_cons, ih]
        simp
  have h1 : (exportDoc sub dateCreated ownerName rows).outlines =
      rows.map (rowNode sub) := by
    unfold exportDoc
    rw [key]
    simp
  exact ⟨h1, fun i => by rw [h1, List.getElem?_map]⟩

/-- C4 counterexample: title hint `"T"`, empty payload — the document has
exactly one childless root, but its label is the extractor's fixed
fallback `"Document"`, not the supplied hint. -/
theorem C4_counterexample_title_hint_ignored :
    (convertPayloadDoc (fun t _ _ => ⟨t, "", none, [], []⟩) "T"
      (Payload.str "") "").outlines = [⟨"Document", [], []⟩] ∧
    ("Document" : String) ≠ "T" :=
  ⟨rfl, by decide⟩

/-- C4 amended: for the empty payload the entry point yields a document
with exactly one root and no children; the root's label is the options
(`cfg`) title hint when a non-empty one is supplied, and the fixed fallback
`"Document"` otherwise — the entry point's positional title argument never
reaches the label (it is shadowed by the extractor's always-non-empty
title). -/
theorem C4_empty_payload_single_root
    (hb : String → String → String → OPMLDocument) (title cfgTitle : String) :
    (convertPayloadDoc hb title (Payload.str "") cfgTitle).outlines =
      [⟨if cfgTitle = "" then "Document" else cfgTitle, [], []⟩] := by
  have hdoc : convertPayloadDoc hb title (Payload.str "") cfgTitle =
      buildOpmlFromText title "" cfgTitle := rfl
  have hout : textToOutline "" cfgTitle = ⟨pyOr cfgTitle "Document", [], []⟩ := rfl
  rw [hdoc]
  by_cases hc : cfgTitle = ""
  · subst hc
    rfl
  · simp only [buildOpmlFromText, hout, if_neg hc, pyOr, List.isEmpty_nil, if_true]

set_option maxRecDepth 40000 in
/-- C5 counterexample: on `"# Title\n\nitem one\n- a\n- b\n- c\n"` the root
"Title" has exactly ONE child — a sub-section labeled "item one" carrying
the three bullet leaves — not the claimed two children (a leaf "item one"
plus a separate sub-section): with no blank line before the markers, the
whole block is one paragraph and its first line becomes the section head. -/
theorem C5_counterexample_one_child :
    textToOutline "# Title\n\nitem one\n- a\n- b\n- c\n" "" =
      ⟨"Title", [⟨"item one",
        [⟨"a", [], []⟩, ⟨"b", [], []⟩, ⟨"c", [], []⟩], []⟩], []⟩ ∧
    (textToOutline "# Title\n\nitem one\n- a\n- b\n- c\n" "").children.length = 1 :=
  ⟨rfl, rfl⟩

set_option maxRecDepth 40000 in
/-- C5 amended: converting `"# Title\n\nitem one\n- a\n- b\n- c\n"` yields
the document titled "Title" whose forest is the single sub-section
"item one" with exactly the three leaf children "a", "b", "c" (the
bulletization fires — three of the four paragraph lines are markers — and
the non-marker first line "item one" becomes the sub-section's head, not a
separate leaf). -/
theorem C5_title_bullets_structure
    (hb : String → String → String → OPMLDocument) (title : String) :
    convertPayloadDoc hb title
        (Payload.str "# Title\n\nitem one\n- a\n- b\n- c\n") "" =
      ⟨"Title", "", none,
        [⟨"item one", [⟨"a", [], []⟩, ⟨"b", [], []⟩, ⟨"c", [], []⟩], []⟩], []⟩ := by
  rfl

/-- C6 counterexample: `<h1>` is one of the structural tag signatures the
claim lists (and `is_probably_html` recognises it), yet the single-document
entry point's test sees none of its four substrings and routes the payload
to the plain-text extractor. -/
theorem C6_counterexample_heading_not_markup :
    isProbablyHtml "<h1>Title</h1>" = true ∧
    routesAsHtml "<h1>Title</h1>" = false ∧
    (convertPayloadDoc (fun t s c => ⟨t, s, none, [], [("branch", c)]⟩) "T"
        (Payload.str "<h1>Title</h1>") "") =
      buildOpmlFromText "T" "<h1>Title</h1>" "" :=
  ⟨rfl, rfl, rfl⟩

/-- C6 amended: the single-document entry point treats a payload as markup
iff its lowercased text contains one of the four substrings `"<html"`,
`"<body"`, `"<div"`, `"<p"`; the full structural signature set (doctype,
head, h1–h6, ul/ol/li, …) is consulted only by the separate file-conversion
detector `is_probably_html`, not by this entry point. -/
theorem C6_entry_point_detection
    (hb : String → String → String → OPMLDocument) (title cfgTitle s : String) :
    convertPayloadDoc hb title (Payload.str s) cfgTitle =
      (if routesAsHtml s then hb title s cfgTitle
       else buildOpmlFromText title s cfgTitle) ∧
    (routesAsHtml s = true ↔
      (strHasSub (pyLower s) "<html" = true ∨ strHasSub (pyLower s) "<body" = true ∨
       strHasSub (pyLower s) "<div" = true ∨ strHasSub (pyLower s) "<p" = true)) := by
  refine ⟨rfl, ?_⟩
  simp [routesAsHtml]

/-- C10: the entry point is total over its payload argument: a `None`
payload behaves exactly like the empty string, a bytes payload is decoded
as UTF-8 with every invalid sequence replaced (never an error — e.g. the
lone `0xff` below), and a str payload is used as-is. -/
theorem C10_payload_totality
    (hb : String → String → String → OPMLDocument) (title cfgTitle : String) :
    convertPayloadDoc hb title Payload.null cfgTitle =
      convertPayloadDoc hb title (Payload.str "") cfgTitle ∧
    (∀ bs, convertPayloadDoc hb title (Payload.bytes bs) cfgTitle =
      convertPayloadDoc hb title (Payload.str ⟨utf8DecodeReplace bs⟩) cfgTitle) ∧
    (∀ s, convertPayloadDoc hb title (Payload.str s) cfgTitle =
      if routesAsHtml s then hb title s cfgTitle
      else buildOpmlFromText title s cfgTitle) ∧
    utf8DecodeReplace [0x68, 0xc3, 0xa9] = ['h', 'é'] ∧
    utf8DecodeReplace [0xff, 0x41] = ['�', 'A'] :=
  ⟨rfl, fun _ => rfl, fun _ => rfl, rfl, rfl⟩
